import Mathlib

set_option maxHeartbeats 1000000
set_option maxRecDepth 100000

/-! Shallow embedding of `src/formatters.py` (lazy_docs): the text helpers,
`_sanitize`, `convert_type`, `canonicalize_description`, the method-signature
rendering shared by the Markdown and LaTeX formatters, and the Dot
(relationship-graph) formatter's fragment generation and final assembly.
Python strings are modelled as `List Char`; `str.replace` is modelled by
`replaceAll` (leftmost, non-overlapping, replacement text not rescanned),
the one regex substitution in `convert_type` by `subUnion`. -/

/-- ASCII whitespace as stripped by Python `str.strip()` / `str.rstrip()`. -/
def pySpace (c : Char) : Bool :=
  c = ' ' || c = '\t' || c = '\n' || c = '\r' || c = '\x0b' || c = '\x0c'

/-- Python `line.rstrip()`. -/
def rstripL (l : List Char) : List Char :=
  (l.reverse.dropWhile pySpace).reverse

/-- Python `line.strip()`. -/
def stripL (l : List Char) : List Char :=
  rstripL (l.dropWhile pySpace)

/-- Python `docstring.split("\n")`. -/
def splitNl : List Char → List (List Char)
  | [] => [[]]
  | c :: cs =>
    let r := splitNl cs
    if c = '\n' then [] :: r else (c :: r.headD []) :: r.tail

/-- Fuel-indexed worker for `replaceAll`; the fuel bounds the number of
scanned positions, the input's length is always enough. -/
def replaceAllF (pat repl : List Char) : Nat → List Char → List Char
  | 0, l => l
  | _ + 1, [] => []
  | n + 1, c :: cs =>
    if pat ≠ [] ∧ pat.isPrefixOf (c :: cs) then
      repl ++ replaceAllF pat repl n (List.drop (pat.length - 1) cs)
    else
      c :: replaceAllF pat repl n cs

/-- Python `s.replace(pat, repl)`: leftmost, non-overlapping, the
replacement text is not rescanned. -/
def replaceAll (pat repl l : List Char) : List Char :=
  replaceAllF pat repl l.length l

/-- `_sanitize` from `src/formatters.py`: strip the two internal module
prefixes, then escape `_` and `#` for LaTeX. -/
def sanitizeL (l : List Char) : List Char :=
  replaceAll ['#'] "\\#".toList
    (replaceAll ['_'] "\\_".toList
      (replaceAll "a2_solution.".toList []
        (replaceAll "a2_support.".toList [] l)))

/-- String-level wrapper of `sanitizeL`, mirroring `_sanitize(text)`. -/
def _sanitize (s : String) : String :=
  (sanitizeL s.toList).asString

/-- The character that sits between the comma and `NoneType` in the
`convert_type` regex of `src/formatters.py`: a no-break space U+00A0
(the source comment warns the space "is not a real space"). -/
def nbsp : Char := '\xa0'

/-- The literal head of the `convert_type` regex, `Union[`. -/
def unionPre : List Char := "Union[".toList

/-- The tail of the `convert_type` regex after the captured group:
a comma, the no-break space, then `NoneType]`. -/
def unionTail : List Char := ',' :: nbsp :: "NoneType]".toList

/-- Attempt to match the regex `Union\[([^,]+?),\xa0NoneType\]` at the head
of `l`; on success return the captured group and the remainder after the
match. The lazy one-or-more comma-free group together with the literal
comma that follows it make the capture exactly the maximal comma-free run
after `Union[`. -/
def matchUnionAt (l : List Char) : Option (List Char × List Char) :=
  if unionPre.isPrefixOf l then
    let rest := l.drop 6
    let t := rest.takeWhile (fun c => c ≠ ',')
    let r2 := rest.dropWhile (fun c => c ≠ ',')
    if !t.isEmpty && unionTail.isPrefixOf r2 then some (t, r2.drop 11) else none
  else none

/-- Fuel-indexed worker for `subUnion`. -/
def subUnionF : Nat → List Char → List Char
  | 0, l => l
  | _ + 1, [] => []
  | n + 1, c :: cs =>
    match matchUnionAt (c :: cs) with
    | some (t, rem) => "Optional[".toList ++ t ++ ']' :: subUnionF n rem
    | none => c :: subUnionF n cs

/-- `re.sub(r'Union\[([^,]+?),\xa0NoneType\]', r'Optional[\1]', s)`:
scan left to right, replacing every non-overlapping match. -/
def subUnion (l : List Char) : List Char :=
  subUnionF l.length l

/-- `convert_type` from `src/formatters.py`: sanitize, rewrite the
optional-union form, then replace every remaining `NoneType` by `None`. -/
def convertTypeL (l : List Char) : List Char :=
  replaceAll "NoneType".toList "None".toList (subUnion (sanitizeL l))

/-- String-level wrapper of `convertTypeL`, mirroring `convert_type`. -/
def convert_type (s : String) : String :=
  (convertTypeL s.toList).asString

/-- The Python string literal `"\_\_init\_\_"` used by the constructor
special case in both `MarkdownFormatter._add_method` and
`LatexFormatter._add_method` (backslash-underscore pairs). -/
def initPat : List Char := "\\_\\_init\\_\\_".toList

/-- The shared signature-building logic of `_add_method`:
`_sanitize(name) + "(" + convert_type(params) + ")" + " -> " +
convert_type(ret)`, collapsed to `Constructor` when it starts with the
sanitized constructor name. `ps` is the already-joined parameter string. -/
def sigL (name ps ret : List Char) : List Char :=
  let s := sanitizeL name ++ "(".toList ++ convertTypeL ps ++ ") -> ".toList ++ convertTypeL ret
  if initPat.isPrefixOf s then "Constructor".toList else s

/-- `MarkdownFormatter._add_method`'s signature string, with the parameter
strings joined by `", "` as in `", ".join(method.params(annotate=True))`. -/
def mdMethodSignature (name : String) (params : List String) (ret : String) : String :=
  (sigL name.toList (String.intercalate ", " params).toList ret.toList).asString

/-- `LatexFormatter._add_method`'s signature string (the code duplicates the
Markdown logic verbatim). -/
def latexMethodSignature (name : String) (params : List String) (ret : String) : String :=
  (sigL name.toList (String.intercalate ", " params).toList ret.toList).asString

/-- State of the `canonicalize_description` loop: the `group` mode flag, the
`in_list` flag, and the accumulated `block`. -/
structure CState where
  group : Bool
  inList : Bool
  block : List Char
deriving DecidableEq

/-- The `STOP_AT` set of `canonicalize_description`. -/
def stopMarkers : List (List Char) :=
  ["Parameters:".toList, "Examples:".toList, "Raises:".toList]

/-- One iteration of the `canonicalize_description` loop body. -/
def canonStep (st : CState) (line : List Char) : CState :=
  let g := if stripL line ∈ stopMarkers then false else st.group
  if g then
    if line = [] then
      if st.inList then
        ⟨g, false, st.block ++ "\n\\end\x7bitemize\x7d\n\n".toList⟩
      else
        ⟨g, st.inList, st.block ++ "\n\n".toList⟩
    else if (stripL line).head? = some '*' then
      if st.inList then
        ⟨g, st.inList, st.block ++ "\n\\item".toList ++ rstripL (replaceAll ['*'] [] line)⟩
      else
        ⟨g, true, st.block ++ "\\begin\x7bitemize\x7d\n\\item".toList ++ rstripL (replaceAll ['*'] [] line)⟩
    else
      ⟨g, st.inList, st.block ++ ' ' :: rstripL line⟩
  else
    ⟨g, st.inList, st.block ++ line ++ ['\n']⟩

/-- Initial state of the loop: `group = True`, `in_list = False`, empty block. -/
def canonInit : CState := ⟨true, false, []⟩

/-- `canonicalize_description` from `src/formatters.py`. -/
def canonicalize_description (docstring : String) : String :=
  ((splitNl docstring.toList).foldl canonStep canonInit).block.asString

/-- `DotFormatter._add_class`'s node statement for a class name. -/
def dotNode (name : String) : String :=
  "\"" ++ name ++ "\" [color=cyan3, label=\"" ++ name ++ "\", shape=\"box\"];"

/-- `DotFormatter._add_class`'s edge statement from a class to its first
ancestor. -/
def dotEdge (name anc : String) : String :=
  "\"" ++ name ++ "\" -> \"" ++ anc ++ "\" [arrowhead=\"empty\", arrowtail=\"none\"];"

/-- `DotFormatter._add_class`: one `NODE` fragment (code 0), then either an
`EDGE` fragment (code 1) to the first name of `clazz.mro()` or, when that
list is empty, a `RANK` fragment (code 2) carrying the bare class name. -/
def dotAddClass (name : String) (ancestors : List String) : List (Nat × String) :=
  (0, dotNode name) ::
    (match ancestors with
      | a :: _ => [(1, dotEdge name a)]
      | [] => [(2, name)])

/-- Strict comparison on fragments by the sort key `(code, message)` of
`DotFormatter._format` (message order is Python's code-point order). -/
def fragLT (a b : Nat × String) : Bool :=
  a.1 < b.1 || (a.1 == b.1 && decide (a.2 < b.2))

/-- Insert a fragment into an already sorted list, after every entry whose
key is not strictly greater — the placement a stable ascending sort gives. -/
def insertFrag (a : Nat × String) : List (Nat × String) → List (Nat × String)
  | [] => [a]
  | b :: bs => if fragLT a b then a :: b :: bs else b :: insertFrag a bs

/-- `body.sort(key=lambda x: (x[0], x[1]))`: stable ascending sort by
`(code, message)`, modelled as stable insertion sort. -/
def sortFrags (l : List (Nat × String)) : List (Nat × String) :=
  l.foldl (fun acc x => insertFrag x acc) []

/-- The fixed digraph header of `DotFormatter._format`. -/
def dotHeader : String := "digraph \"classes\" \x7b\ncharset=\"utf-8\"\nrankdir=BT\n"

/-- `DotFormatter._format`: sort the fragments by `(code, message)`, join the
non-`RANK` messages with newlines, then append one rank-alignment statement
listing the quoted `RANK` names, wrapped in the digraph header and footer. -/
def dotFormat (body : List (Nat × String)) : String :=
  let sorted := sortFrags body
  let bodyStr := String.intercalate "\n" ((sorted.filter (fun f => !(f.1 == 2))).map (fun f => f.2))
  let ranks := String.intercalate ", " ((sorted.filter (fun f => f.1 == 2)).map (fun f => "\"" ++ f.2 ++ "\""))
  dotHeader ++ bodyStr ++ "\n\x7b rank=same; " ++ ranks ++ " \x7d\n" ++ "\x7d"

/-- Occurrence count of a pattern in a character list: the number of
positions at which `pat` is a prefix of the remaining suffix. -/
def countOcc (pat : List Char) : List Char → Nat
  | [] => 0
  | c :: cs => (if pat.isPrefixOf (c :: cs) then 1 else 0) + countOcc pat cs

/-! ### Lemmas about the `canonicalize_description` state machine -/

lemma canonStep_of_marker (st : CState) (line : List Char) (hm : stripL line ∈ stopMarkers) :
    canonStep st line = ⟨false, st.inList, st.block ++ line ++ ['\n']⟩ := by
  simp [canonStep, hm]

lemma canonStep_group_false (st : CState) (line : List Char) (h : st.group = false) :
    canonStep st line = ⟨false, st.inList, st.block ++ line ++ ['\n']⟩ := by
  by_cases hm : stripL line ∈ stopMarkers <;> simp [canonStep, hm, h]

lemma verbatim_foldl (lines : List (List Char)) :
    ∀ st : CState, st.group = false →
      lines.foldl canonStep st =
        ⟨false, st.inList, st.block ++ (lines.map (fun l => l ++ ['\n'])).flatten⟩ := by
  induction lines with
  | nil => intro st h; cases st; simp_all
  | cons l ls ih =>
    intro st h
    rw [List.foldl_cons, canonStep_group_false st l h, ih _ rfl]
    simp [List.append_assoc]

lemma canonStep_grouped (st : CState) (line : List Char) (hg : st.group = true)
    (hm : stripL line ∉ stopMarkers) :
    canonStep st line =
      if line = [] then
        if st.inList then ⟨true, false, st.block ++ "\n\\end\x7bitemize\x7d\n\n".toList⟩
        else ⟨true, st.inList, st.block ++ "\n\n".toList⟩
      else if (stripL line).head? = some '*' then
        if st.inList then
          ⟨true, st.inList, st.block ++ "\n\\item".toList ++ rstripL (replaceAll ['*'] [] line)⟩
        else
          ⟨true, true, st.block ++ "\\begin\x7bitemize\x7d\n\\item".toList ++ rstripL (replaceAll ['*'] [] line)⟩
      else ⟨true, st.inList, st.block ++ ' ' :: rstripL line⟩ := by
  simp [canonStep, hm, hg]

lemma canonStep_group_of_not_marker (st : CState) (line : List Char) (hg : st.group = true)
    (hm : stripL line ∉ stopMarkers) : (canonStep st line).group = true := by
  rw [canonStep_grouped st line hg hm]
  by_cases h0 : line = [] <;> by_cases hb : (stripL line).head? = some '*' <;>
    by_cases hi : st.inList = true <;> simp [h0, hb, hi]

lemma foldl_group_true (lines : List (List Char)) :
    ∀ st : CState, st.group = true → (∀ l ∈ lines, stripL l ∉ stopMarkers) →
      (lines.foldl canonStep st).group = true := by
  induction lines with
  | nil => intro st h _; simpa using h
  | cons l ls ih =>
    intro st h hall
    rw [List.foldl_cons]
    exact ih _ (canonStep_group_of_not_marker st l h (hall l (List.mem_cons_self _ _)))
      (fun x hx => hall x (List.mem_cons_of_mem _ hx))

lemma canon_split (pre post : List (List Char)) (m : List Char) (hm : stripL m ∈ stopMarkers) :
    ((pre ++ m :: post).foldl canonStep canonInit).block =
      (pre.foldl canonStep canonInit).block ++ ((m :: post).map (fun l => l ++ ['\n'])).flatten := by
  rw [List.foldl_append, List.foldl_cons,
    canonStep_of_marker (pre.foldl canonStep canonInit) m hm, verbatim_foldl post _ rfl]
  simp [List.append_assoc]

lemma rstripL_getLast (l : List Char) (a : Char) (h : (rstripL l).getLast? = some a) :
    pySpace a = false := by
  unfold rstripL at h
  rw [List.getLast?_reverse] at h
  have hd := List.head?_dropWhile_not pySpace l.reverse
  rw [h] at hd
  exact hd

lemma getLast?_append_right (a b : List Char) (hb : b ≠ []) :
    (a ++ b).getLast? = b.getLast? := by
  cases b with
  | nil => exact absurd rfl hb
  | cons c cs =>
    rw [List.getLast?_append, List.getLast?_eq_getLast_of_ne_nil (l := c :: cs) (by simp)]
    rfl

lemma tail_getLast_ne_newline (u z : List Char) (hun : u.getLast? ≠ some '\n') :
    (u ++ rstripL z).getLast? ≠ some '\n' := by
  cases hr : rstripL z with
  | nil => rw [List.append_nil]; exact hun
  | cons c cs =>
    rw [getLast?_append_right u (c :: cs) (by simp)]
    intro h
    have hp : pySpace '\n' = false := rstripL_getLast z '\n' (by rw [hr]; exact h)
    exact absurd hp (by decide)

lemma canonStep_grouped_not_verbatim (st : CState) (line : List Char)
    (hg : st.group = true) (hm : stripL line ∉ stopMarkers) :
    (canonStep st line).block ≠ st.block ++ line ++ ['\n'] := by
  intro he
  rw [canonStep_grouped st line hg hm] at he
  have hrhs : (st.block ++ line ++ ['\n']).getLast? = some '\n' := by
    rw [getLast?_append_right (st.block ++ line) ['\n'] (by simp)]
    rfl
  by_cases h0 : line = []
  · rw [if_pos h0] at he
    subst h0
    by_cases hi : st.inList = true
    · rw [if_pos hi] at he
      have he' : st.block ++ "\n\\end\x7bitemize\x7d\n\n".toList = st.block ++ [] ++ ['\n'] := he
      rw [List.append_nil] at he'
      exact absurd (List.append_cancel_left he') (by decide)
    · rw [if_neg hi] at he
      have he' : st.block ++ "\n\n".toList = st.block ++ [] ++ ['\n'] := he
      rw [List.append_nil] at he'
      exact absurd (List.append_cancel_left he') (by decide)
  · by_cases hb : (stripL line).head? = some '*'
    · rw [if_neg h0, if_pos hb] at he
      by_cases hi : st.inList = true
      · rw [if_pos hi] at he
        have he' : st.block ++ "\n\\item".toList ++ rstripL (replaceAll ['*'] [] line)
            = st.block ++ line ++ ['\n'] := he
        have hv : ((st.block ++ "\n\\item".toList) ++ rstripL (replaceAll ['*'] [] line)).getLast?
            = some '\n' := by rw [he']; exact hrhs
        exact tail_getLast_ne_newline (st.block ++ "\n\\item".toList) (replaceAll ['*'] [] line)
          (by rw [getLast?_append_right _ _ (by decide)]; decide) hv
      · rw [if_neg hi] at he
        have he' : st.block ++ "\\begin\x7bitemize\x7d\n\\item".toList
              ++ rstripL (replaceAll ['*'] [] line)
            = st.block ++ line ++ ['\n'] := he
        have hv : ((st.block ++ "\\begin\x7bitemize\x7d\n\\item".toList)
              ++ rstripL (replaceAll ['*'] [] line)).getLast? = some '\n' := by
          rw [he']; exact hrhs
        exact tail_getLast_ne_newline (st.block ++ "\\begin\x7bitemize\x7d\n\\item".toList)
          (replaceAll ['*'] [] line)
          (by rw [getLast?_append_right _ _ (by decide)]; decide) hv
    · rw [if_neg h0, if_neg hb] at he
      have he' : st.block ++ ' ' :: rstripL line = st.block ++ line ++ ['\n'] := he
      have hv : (st.block ++ ' ' :: rstripL line).getLast? = some '\n' := by
        rw [he']; exact hrhs
      rw [getLast?_append_right st.block _ (by simp)] at hv
      exact tail_getLast_ne_newline [' '] line (by decide) hv

lemma grouped_plain_foldl (lines : List (List Char)) :
    ∀ st : CState, st.group = true → st.inList = false →
      (∀ l ∈ lines, stripL l ∉ stopMarkers ∧ (stripL l).head? ≠ some '*') →
      lines.foldl canonStep st =
        ⟨true, false, st.block ++
          (lines.map (fun l => if l = [] then "\n\n".toList else ' ' :: rstripL l)).flatten⟩ := by
  induction lines with
  | nil => intro st hg hi _; cases st; simp_all
  | cons l ls ih =>
    intro st hg hi hall
    obtain ⟨hm, hb⟩ := hall l (List.mem_cons_self _ _)
    rw [List.foldl_cons]
    have hstep : canonStep st l =
        ⟨true, false, st.block ++ (if l = [] then "\n\n".toList else ' ' :: rstripL l)⟩ := by
      rw [canonStep_grouped st l hg hm]
      by_cases h0 : l = []
      · rw [if_pos h0, if_pos h0, if_neg (by rw [hi]; simp), hi]
      · rw [if_neg h0, if_neg h0, if_neg hb, hi]
    rw [hstep, ih _ rfl rfl (fun x hx => hall x (List.mem_cons_of_mem _ hx))]
    simp [List.append_assoc]

/-! ### Claim theorems about `canonicalize_description` -/

/-- **C1**: canonicalization splits every docstring at its first stop-marker
line: the grouped-to-verbatim mode switch is permanent (once `group` is
false it remains false for any further lines), the lines before the marker
are processed entirely in grouped mode, a grouped step never passes a line
through verbatim (never appends the raw line followed by a newline), and
every line from the stop-marker line on is appended to the output unchanged
followed by a newline (including empty lines). -/
theorem canonicalize_splits_at_first_stop_marker (s : String)
    (pre post : List (List Char)) (m : List Char)
    (hsplit : splitNl s.toList = pre ++ m :: post)
    (hpre : ∀ l ∈ pre, stripL l ∉ stopMarkers)
    (hm : stripL m ∈ stopMarkers) :
    (∀ (st : CState) (lines : List (List Char)), st.group = false →
      (lines.foldl canonStep st).group = false)
    ∧ (pre.foldl canonStep canonInit).group = true
    ∧ (∀ (st : CState) (line : List Char), st.group = true → stripL line ∉ stopMarkers →
        (canonStep st line).block ≠ st.block ++ line ++ ['\n'])
    ∧ (canonicalize_description s).toList =
        (pre.foldl canonStep canonInit).block
          ++ ((m :: post).map (fun l => l ++ ['\n'])).flatten := by
  refine ⟨?_, ?_, ?_, ?_⟩
  · intro st lines h
    rw [verbatim_foldl lines st h]
  · exact foldl_group_true pre canonInit rfl hpre
  · exact fun st line hg hmm => canonStep_grouped_not_verbatim st line hg hmm
  · have h1 : (canonicalize_description s).toList
        = ((splitNl s.toList).foldl canonStep canonInit).block := rfl
    rw [h1, hsplit]
    exact canon_split pre post m hm

theorem canonicalize_splits_at_first_stop_marker_witness :
    splitNl ("a\nParameters:\nx\n\ny".toList) =
      [['a']] ++ "Parameters:".toList :: ["x".toList, [], "y".toList]
    ∧ stripL "Parameters:".toList ∈ stopMarkers
    ∧ (canonicalize_description "a\nParameters:\nx\n\ny").toList =
        ([['a']].foldl canonStep canonInit).block
          ++ (("Parameters:".toList :: ["x".toList, [], "y".toList]).map
              (fun l => l ++ ['\n'])).flatten :=
  ⟨by decide, by decide,
    (canonicalize_splits_at_first_stop_marker "a\nParameters:\nx\n\ny" [['a']]
      ["x".toList, [], "y".toList] "Parameters:".toList (by decide) (by decide)
      (by decide)).2.2.2⟩

/-- **C9**: when a docstring contains a stop-marker line, the marker line
itself appears in the canonicalized output verbatim followed by a newline —
the switch to verbatim mode takes effect before the marker line is emitted,
so the marker line belongs to the verbatim tail. -/
theorem canonicalize_marker_line_verbatim (s : String)
    (pre post : List (List Char)) (m : List Char)
    (hsplit : splitNl s.toList = pre ++ m :: post)
    (hpre : ∀ l ∈ pre, stripL l ∉ stopMarkers)
    (hm : stripL m ∈ stopMarkers) :
    ∃ a b : List Char, (canonicalize_description s).toList = a ++ (m ++ '\n' :: b) := by
  refine ⟨(pre.foldl canonStep canonInit).block,
    (post.map (fun l => l ++ ['\n'])).flatten, ?_⟩
  have h1 : (canonicalize_description s).toList
      = ((splitNl s.toList).foldl canonStep canonInit).block := rfl
  rw [h1, hsplit, canon_split pre post m hm]
  simp [List.append_assoc]

theorem canonicalize_marker_line_verbatim_witness :
    ∃ a b : List Char,
      (canonicalize_description "q\nRaises:\nboom").toList
        = a ++ ("Raises:".toList ++ '\n' :: b) :=
  canonicalize_marker_line_verbatim "q\nRaises:\nboom" [['q']] ["boom".toList]
    "Raises:".toList (by decide) (by decide) (by decide)

/-- **C5**: with no stop-marker line and no bullet line, canonicalization
folds the docstring's lines into running paragraphs: each non-empty line is
appended with a single leading space and trailing whitespace trimmed, each
empty line contributes a double-newline paragraph separator, and no list
markup of any kind is introduced. -/
theorem canonicalize_plain_paragraph_folding (s : String)
    (h : ∀ l ∈ splitNl s.toList, stripL l ∉ stopMarkers ∧ (stripL l).head? ≠ some '*') :
    (canonicalize_description s).toList =
      ((splitNl s.toList).map
        (fun l => if l = [] then "\n\n".toList else ' ' :: rstripL l)).flatten := by
  have h1 : (canonicalize_description s).toList
      = ((splitNl s.toList).foldl canonStep canonInit).block := rfl
  rw [h1, grouped_plain_foldl (splitNl s.toList) canonInit rfl rfl h]
  simp [canonInit]

theorem canonicalize_plain_paragraph_folding_witness :
    (∀ l ∈ splitNl "ab \ncd\n\nef".toList,
      stripL l ∉ stopMarkers ∧ (stripL l).head? ≠ some '*')
    ∧ (canonicalize_description "ab \ncd\n\nef").toList =
        ((splitNl "ab \ncd\n\nef".toList).map
          (fun l => if l = [] then "\n\n".toList else ' ' :: rstripL l)).flatten :=
  ⟨by decide, canonicalize_plain_paragraph_folding "ab \ncd\n\nef" (by decide)⟩

/-- **C2** counterexample: in grouped mode a bullet line has ALL of its `*`
characters removed (the code runs `line.replace("*", "")`), not only the
leading one: on the one-line docstring `* a*b` the code produces
`\item ab`, not the `\item a*b` the claim predicts. -/
theorem canonicalize_bullet_counterexample :
    canonicalize_description "* a*b" = "\\begin\x7bitemize\x7d\n\\item ab"
    ∧ "\\begin\x7bitemize\x7d\n\\item ab" ≠ "\\begin\x7bitemize\x7d\n\\item a*b" :=
  ⟨by decide, by decide⟩

/-- **C2** amended: in grouped mode, a line whose stripped content starts
with `*` emits a list-opener when not already inside a list, sets the
in-list flag, and emits the list-item marker followed by the line's content
with EVERY `*` character removed and trailing whitespace trimmed. -/
theorem canonicalize_bullet_step (st : CState) (line : List Char)
    (hg : st.group = true) (hm : stripL line ∉ stopMarkers)
    (hb : (stripL line).head? = some '*') :
    canonStep st line =
      ⟨true, true,
        st.block ++ (if st.inList then [] else "\\begin\x7bitemize\x7d".toList)
          ++ "\n\\item".toList ++ rstripL (replaceAll ['*'] [] line)⟩ := by
  have h0 : line ≠ [] := by
    intro h; subst h; exact absurd hb (by decide)
  rw [canonStep_grouped st line hg hm, if_neg h0, if_pos hb]
  by_cases hi : st.inList = true
  · rw [if_pos hi, if_pos hi, hi, List.append_nil]
  · rw [if_neg hi, if_neg hi]
    rw [(by decide : ("\\begin\x7bitemize\x7d\n\\item".toList : List Char)
        = "\\begin\x7bitemize\x7d".toList ++ "\n\\item".toList)]
    simp [List.append_assoc]

theorem canonicalize_bullet_step_witness :
    canonStep canonInit "* a*b ".toList =
      ⟨true, true,
        canonInit.block ++ (if canonInit.inList then [] else "\\begin\x7bitemize\x7d".toList)
          ++ "\n\\item".toList ++ rstripL (replaceAll ['*'] [] "* a*b ".toList)⟩ :=
  canonicalize_bullet_step canonInit "* a*b ".toList rfl (by decide) (by decide)

/-! ### Lemmas about `convert_type` -/

lemma isPrefixOf_append_self (p r : List Char) : p.isPrefixOf (p ++ r) = true := by
  simp [List.isPrefixOf_iff_prefix]

lemma takeWhile_append_exact (p : Char → Bool) (T r : List Char)
    (hT : ∀ c ∈ T, p c = true) (hr : ∀ a, r.head? = some a → p a = false) :
    (T ++ r).takeWhile p = T ∧ (T ++ r).dropWhile p = r := by
  induction T with
  | nil =>
    simp only [List.nil_append]
    cases r with
    | nil => simp
    | cons a as =>
      have ha := hr a rfl
      simp [List.takeWhile_cons, List.dropWhile_cons, ha]
  | cons c cs ih =>
    have hc := hT c (List.mem_cons_self _ _)
    obtain ⟨h1, h2⟩ := ih (fun x hx => hT x (List.mem_cons_of_mem _ hx))
    simp [List.takeWhile_cons, List.dropWhile_cons, hc, h1, h2]

lemma matchUnionAt_exact (T tl : List Char) (hT : T ≠ []) (hc : ∀ c ∈ T, c ≠ ',') :
    matchUnionAt (unionPre ++ T ++ unionTail ++ tl) = some (T, tl) := by
  have hassoc : unionPre ++ T ++ unionTail ++ tl
      = unionPre ++ (T ++ (unionTail ++ tl)) := by
    simp [List.append_assoc]
  have hpre2 : unionPre.isPrefixOf (unionPre ++ T ++ unionTail ++ tl) = true := by
    rw [hassoc]; exact isPrefixOf_append_self _ _
  have hdrop : (unionPre ++ T ++ unionTail ++ tl).drop 6 = T ++ (unionTail ++ tl) := by
    rw [hassoc]; exact List.drop_left' (by decide)
  have htw := takeWhile_append_exact (fun c => c ≠ ',') T (unionTail ++ tl)
    (fun c hcm => by simpa using hc c hcm)
    (fun a ha => by
      have ha' : a = ',' := by simpa [unionTail] using ha.symm
      simp [ha'])
  have hcond : (!((T ++ (unionTail ++ tl)).takeWhile (fun c => c ≠ ',')).isEmpty
      && unionTail.isPrefixOf ((T ++ (unionTail ++ tl)).dropWhile (fun c => c ≠ ','))) = true := by
    rw [htw.1, htw.2, isPrefixOf_append_self]
    cases T with
    | nil => exact absurd rfl hT
    | cons a as => rfl
  unfold matchUnionAt
  rw [if_pos hpre2, hdrop, if_pos hcond, htw.1, htw.2, List.drop_left' (by decide)]

lemma subUnionF_nil (n : Nat) : subUnionF n [] = [] := by cases n <;> rfl

lemma subUnion_exact (T : List Char) (hT : T ≠ []) (hc : ∀ c ∈ T, c ≠ ',') :
    subUnion (unionPre ++ T ++ unionTail) = "Optional[".toList ++ T ++ [']'] := by
  have hm : matchUnionAt (unionPre ++ T ++ unionTail) = some (T, []) := by
    have h := matchUnionAt_exact T [] hT hc
    rwa [List.append_nil] at h
  obtain ⟨c, cs, hccs⟩ : ∃ c cs, unionPre ++ T ++ unionTail = c :: cs := by
    cases h : unionPre ++ T ++ unionTail with
    | nil =>
      have hl := congrArg List.length h
      simp only [List.length_append, List.length_nil] at hl
      rw [(by decide : unionTail.length = 11)] at hl
      omega
    | cons c cs => exact ⟨c, cs, rfl⟩
  unfold subUnion
  rw [hccs, List.length_cons]
  simp only [subUnionF]
  rw [← hccs, hm]
  simp [subUnionF_nil]

/-! ### Claim theorems about `convert_type` -/

/-- **C3** counterexample: with an ORDINARY space after the comma the
optional-wrapper rewrite does not fire — the pattern in the source carries a
no-break space (U+00A0) between the comma and `NoneType` — so the exact
form `Union[int, NoneType]` renders as `Union[int, None]`, not as
`Optional[int]` as the claim states. -/
theorem convert_type_ordinary_space_counterexample :
    convert_type "Union[int, NoneType]" = "Union[int, None]"
    ∧ convert_type "Union[int, NoneType]" ≠ "Optional[int]" :=
  ⟨by decide, by decide⟩

/-- **C3** amended: the optional-wrapper rewrite fires exactly on the
two-argument form `Union[<T>,<NBSP>NoneType]` whose separator is the
no-break space U+00A0 (for `<T>` non-empty, comma-free, unchanged by
sanitization and not containing `NoneType`), three-or-more-member unions
are not rewritten apart from the literal `NoneType` → `None` substitution,
and the literal string `NoneType` alone renders as `None`. -/
theorem convert_type_optional_rewrite (T : List Char) (hT : T ≠ [])
    (hc : ∀ c ∈ T, c ≠ ',')
    (hsan : sanitizeL (unionPre ++ T ++ unionTail) = unionPre ++ T ++ unionTail)
    (hnt : replaceAll "NoneType".toList "None".toList ("Optional[".toList ++ T ++ [']'])
        = "Optional[".toList ++ T ++ [']']) :
    convertTypeL (unionPre ++ T ++ unionTail) = "Optional[".toList ++ T ++ [']']
    ∧ convert_type "NoneType" = "None"
    ∧ convert_type "Union[int,\xa0str,\xa0NoneType]" = "Union[int,\xa0str,\xa0None]" := by
  refine ⟨?_, by decide, by decide⟩
  unfold convertTypeL
  rw [hsan, subUnion_exact T hT hc, hnt]

theorem convert_type_optional_rewrite_witness :
    ("X2".toList ≠ ([] : List Char))
    ∧ sanitizeL (unionPre ++ "X2".toList ++ unionTail) = unionPre ++ "X2".toList ++ unionTail
    ∧ convertTypeL (unionPre ++ "X2".toList ++ unionTail)
        = "Optional[".toList ++ "X2".toList ++ [']'] :=
  ⟨by decide, by decide,
    (convert_type_optional_rewrite "X2".toList (by decide) (by decide) (by decide)
      (by decide)).1⟩

/-! ### Claim theorems about signature rendering and sanitization -/

lemma sigL_init (ps rt : List Char) : sigL "__init__".toList ps rt = "Constructor".toList := by
  have hs : sanitizeL "__init__".toList = initPat := by decide
  simp only [sigL, hs, List.append_assoc, isPrefixOf_append_self, if_true]

/-- **C6**: a method named `__init__` renders, in both the Markdown and the
LaTeX formatter, as exactly the fixed label `Constructor`, regardless of the
method's parameter list and return type. -/
theorem constructor_signature_collapse (params : List String) (ret : String) :
    mdMethodSignature "__init__" params ret = "Constructor"
    ∧ latexMethodSignature "__init__" params ret = "Constructor" := by
  constructor <;>
    · show (sigL "__init__".toList _ _).asString = "Constructor"
      rw [sigL_init, String.asString_toList]

/-- **C4** counterexample: the Markdown formatter does NOT skip identifier
sanitization — `MarkdownFormatter._add_method` sanitizes the method name and
the type strings exactly as the LaTeX formatter does, so a method name with
an underscore renders with the underscore escaped in the Markdown
signature, contrary to the claim. -/
theorem markdown_signature_escapes_counterexample :
    mdMethodSignature "my_method" [] "int" = "my\\_method() -> int"
    ∧ mdMethodSignature "my_method" [] "int" ≠ "my_method() -> int" :=
  ⟨by decide, by decide⟩

/-- **C4** amended: identifier sanitization is applied both in LaTeX and in
Markdown signature rendering (the two `_add_method` bodies share identical
signature logic); only the relationship-graph output skips it — its node
statement embeds the raw class name unchanged, and the Dot formatter
renders no method signatures at all. -/
theorem sanitize_in_markdown_and_latex_signatures :
    (∀ (name : String) (params : List String) (ret : String),
      mdMethodSignature name params ret = latexMethodSignature name params ret)
    ∧ mdMethodSignature "my_method" [] "int" = "my\\_method() -> int"
    ∧ (∀ (name : String) (ancestors : List String),
      (dotAddClass name ancestors).head? = some (0,
        "\"" ++ name ++ "\" [color=cyan3, label=\"" ++ name ++ "\", shape=\"box\"];")) :=
  ⟨fun _ _ _ => rfl, by decide, fun _ _ => rfl⟩

/-- **C7**: every visited class contributes exactly one node statement, and
exactly one of: an edge statement to its FIRST ancestor (when the ancestor
list is non-empty — deeper ancestors are never recorded), or a same-rank
fragment (when it has no ancestors). A class with an ancestor contributes
no same-rank fragment, so it cannot appear in the rank grouping. -/
theorem dot_class_fragments (name : String) (ancestors : List String) :
    ((dotAddClass name ancestors).filter (fun f => f.1 == 0)).length = 1
    ∧ (∀ a rest, ancestors = a :: rest →
        dotAddClass name ancestors = [(0, dotNode name), (1, dotEdge name a)]
        ∧ (dotAddClass name ancestors).filter (fun f => f.1 == 2) = [])
    ∧ (ancestors = [] → dotAddClass name ancestors = [(0, dotNode name), (2, name)]) := by
  refine ⟨?_, ?_, ?_⟩
  · cases ancestors <;> rfl
  · rintro a rest rfl
    exact ⟨rfl, rfl⟩
  · rintro rfl
    rfl

theorem dot_class_fragments_witness :
    dotAddClass "Foo" ["Base"] = [(0, dotNode "Foo"), (1, dotEdge "Foo" "Base")]
    ∧ (dotAddClass "Foo" ["Base"]).filter (fun f => f.1 == 2) = [] :=
  (dot_class_fragments "Foo" ["Base"]).2.1 "Base" [] rfl

/-! ### Claim theorems about sanitization idempotence -/

lemma replaceAllF_id (pat repl : List Char) (c0 : Char) (hc : c0 ∈ pat) :
    ∀ (n : Nat) (l : List Char), c0 ∉ l → replaceAllF pat repl n l = l := by
  intro n
  induction n with
  | zero => intro l _; rfl
  | succ n ih =>
    intro l h
    cases l with
    | nil => rfl
    | cons c cs =>
      have hnp : ¬(pat ≠ [] ∧ pat.isPrefixOf (c :: cs) = true) := by
        rintro ⟨-, hp⟩
        exact h (List.IsPrefix.subset (List.isPrefixOf_iff_prefix.mp hp) hc)
      simp only [replaceAllF, if_neg hnp]
      rw [ih cs (fun hm => h (List.mem_cons_of_mem c hm))]

lemma replaceAll_id (pat repl l : List Char) (c0 : Char) (hc : c0 ∈ pat) (h : c0 ∉ l) :
    replaceAll pat repl l = l :=
  replaceAllF_id pat repl c0 hc l.length l h

/-- **C8** counterexample: sanitization is NOT idempotent on its own output:
sanitizing `_` yields `\_`, which still contains a raw underscore (the
escaped one), so a second pass escapes it again and yields `\\_`. -/
theorem sanitize_not_idempotent_counterexample :
    _sanitize "_" = "\\_"
    ∧ _sanitize (_sanitize "_") = "\\\\_"
    ∧ _sanitize (_sanitize "_") ≠ _sanitize "_" :=
  ⟨by decide, by decide, by decide⟩

/-- **C8** amended: sanitization is a no-op — hence idempotent — on strings
containing no underscore and no `#` at all (such strings also contain no
internal path prefix, as those contain an underscore). The output of
sanitizing a string that contained an underscore or `#` is not such a
string: its escape sequences still contain the raw character, so re-running
sanitization changes it. -/
theorem sanitize_noop_on_clean (s : String) (hu : '_' ∉ s.toList) (hh : '#' ∉ s.toList) :
    _sanitize s = s ∧ _sanitize (_sanitize s) = _sanitize s := by
  have h1 : sanitizeL s.toList = s.toList := by
    unfold sanitizeL
    rw [replaceAll_id "a2_support.".toList [] s.toList '_' (by decide) hu,
      replaceAll_id "a2_solution.".toList [] s.toList '_' (by decide) hu,
      replaceAll_id ['_'] "\\_".toList s.toList '_' (by decide) hu,
      replaceAll_id ['#'] "\\#".toList s.toList '#' (by decide) hh]
  have h2 : _sanitize s = s := by
    show (sanitizeL s.toList).asString = s
    rw [h1, String.asString_toList]
  exact ⟨h2, by rw [h2]; exact h2⟩

theorem sanitize_noop_on_clean_witness :
    ('_' ∉ "abc.def".toList) ∧ ('#' ∉ "abc.def".toList)
    ∧ _sanitize "abc.def" = "abc.def"
    ∧ _sanitize (_sanitize "abc.def") = _sanitize "abc.def" :=
  ⟨by decide, by decide, (sanitize_noop_on_clean "abc.def" (by decide) (by decide)).1,
    (sanitize_noop_on_clean "abc.def" (by decide) (by decide)).2⟩

/-! ### Lemmas about `dotFormat` and occurrence counting -/

lemma mem_insertFrag (x a : Nat × String) (l : List (Nat × String)) :
    x ∈ insertFrag a l ↔ x = a ∨ x ∈ l := by
  induction l with
  | nil => simp [insertFrag]
  | cons b bs ih =>
    by_cases h : fragLT a b = true
    · simp [insertFrag, h]
    · simp only [insertFrag, if_neg h, List.mem_cons, ih]
      tauto

lemma mem_sortFrags_aux (l : List (Nat × String)) :
    ∀ (acc : List (Nat × String)) (x : Nat × String),
      x ∈ l.foldl (fun acc y => insertFrag y acc) acc ↔ x ∈ acc ∨ x ∈ l := by
  induction l with
  | nil => intro acc x; simp
  | cons y ys ih =>
    intro acc x
    rw [List.foldl_cons, ih (insertFrag y acc) x, mem_insertFrag]
    simp only [List.mem_cons]
    tauto

lemma mem_sortFrags (x : Nat × String) (l : List (Nat × String)) :
    x ∈ sortFrags l ↔ x ∈ l := by
  unfold sortFrags
  rw [mem_sortFrags_aux l [] x]
  simp

lemma isPrefixOf_append_of_getLast_nl (pat : List Char) (hp : '\n' ∉ pat) :
    ∀ (x b : List Char), x.getLast? = some '\n' →
      pat.isPrefixOf (x ++ b) = pat.isPrefixOf x := by
  induction pat with
  | nil => intro x b _; simp
  | cons p ps ih =>
    intro x b hx
    cases x with
    | nil => simp at hx
    | cons c cs =>
      rw [List.cons_append, List.isPrefixOf_cons₂, List.isPrefixOf_cons₂]
      cases cs with
      | nil =>
        have hc : c = '\n' := by simpa using hx
        subst hc
        have hne : (p == '\n') = false := by
          have hpn : p ≠ '\n' := fun he => hp (he ▸ List.mem_cons_self p ps)
          simpa using hpn
        rw [hne]
        simp
      | cons d ds =>
        have hx' : (d :: ds).getLast? = some '\n' := by
          rwa [List.getLast?_cons_cons] at hx
        rw [ih (fun hm => hp (List.mem_cons_of_mem _ hm)) (d :: ds) b hx']

lemma isPrefixOf_append_of_head_nl (pat : List Char) (hp : '\n' ∉ pat) :
    ∀ (x b : List Char), b.head? = some '\n' →
      pat.isPrefixOf (x ++ b) = pat.isPrefixOf x := by
  induction pat with
  | nil => intro x b _; simp
  | cons p ps ih =>
    intro x b hb
    cases x with
    | nil =>
      cases b with
      | nil => simp at hb
      | cons e es =>
        have he : e = '\n' := by simpa using hb
        subst he
        have hne : (p == '\n') = false := by
          have hpn : p ≠ '\n' := fun hq => hp (hq ▸ List.mem_cons_self p ps)
          simpa using hpn
        simp [List.isPrefixOf_cons₂, hne]
    | cons c cs =>
      rw [List.cons_append, List.isPrefixOf_cons₂, List.isPrefixOf_cons₂,
        ih (fun hm => hp (List.mem_cons_of_mem _ hm)) cs b hb]

lemma countOcc_append_of_head_nl (pat : List Char) (hp : '\n' ∉ pat) :
    ∀ (a b : List Char), b.head? = some '\n' →
      countOcc pat (a ++ b) = countOcc pat a + countOcc pat b := by
  intro a
  induction a with
  | nil => intro b _; simp [countOcc]
  | cons c cs ih =>
    intro b hb
    simp only [List.cons_append, countOcc, List.append_eq]
    rw [ih b hb]
    have h1 : pat.isPrefixOf (c :: (cs ++ b)) = pat.isPrefixOf (c :: cs) := by
      have h2 := isPrefixOf_append_of_head_nl pat hp (c :: cs) b hb
      rwa [List.cons_append] at h2
    simp only [h1, Nat.add_assoc]

lemma countOcc_append_of_last_nl (pat : List Char) (hp : '\n' ∉ pat) :
    ∀ (a b : List Char), a.getLast? = some '\n' →
      countOcc pat (a ++ b) = countOcc pat a + countOcc pat b := by
  intro a
  induction a with
  | nil => intro b hb; simp at hb
  | cons c cs ih =>
    intro b ha
    simp only [List.cons_append, countOcc, List.append_eq]
    have h1 : pat.isPrefixOf (c :: (cs ++ b)) = pat.isPrefixOf (c :: cs) := by
      have h2 := isPrefixOf_append_of_getLast_nl pat hp (c :: cs) b ha
      rwa [List.cons_append] at h2
    simp only [h1]
    cases cs with
    | nil =>
      simp [countOcc]
    | cons d ds =>
      have ha' : (d :: ds).getLast? = some '\n' := by rwa [List.getLast?_cons_cons] at ha
      rw [ih b ha', Nat.add_assoc]

/-- **C10**: the relationship-graph output always carries its single
rank-alignment statement: even when every fragment is a node or edge (every
visited class has an ancestor, so no `RANK` fragment exists), the assembled
output still ends with the `\x7b rank=same; ... \x7d` line, emitted with an
empty name list rather than omitted; and provided the joined node/edge body
contains no occurrence of `rank=same`, the whole output contains exactly
one occurrence. -/
theorem dot_rank_statement_always_emitted (body : List (Nat × String))
    (hnr : ∀ f ∈ body, f.1 ≠ 2) :
    (dotFormat body).toList =
      dotHeader.toList
        ++ ((String.intercalate "\n" ((sortFrags body).map (fun f => f.2))).toList
          ++ "\n\x7b rank=same;  \x7d\n\x7d".toList)
    ∧ (countOcc "rank=same".toList
          (String.intercalate "\n" ((sortFrags body).map (fun f => f.2))).toList = 0 →
        countOcc "rank=same".toList (dotFormat body).toList = 1) := by
  have hall : ∀ f ∈ sortFrags body, f.1 ≠ 2 :=
    fun f hf => hnr f ((mem_sortFrags f body).mp hf)
  have hf1 : (sortFrags body).filter (fun f => !(f.1 == 2)) = sortFrags body :=
    List.filter_eq_self.mpr (fun f hf => by simpa using hall f hf)
  have hf2 : (sortFrags body).filter (fun f => f.1 == 2) = [] :=
    List.filter_eq_nil_iff.mpr (fun f hf => by simpa using hall f hf)
  have hmain : (dotFormat body).toList =
      dotHeader.toList
        ++ ((String.intercalate "\n" ((sortFrags body).map (fun f => f.2))).toList
          ++ "\n\x7b rank=same;  \x7d\n\x7d".toList) := by
    simp only [dotFormat]
    rw [hf1, hf2]
    simp only [List.map_nil]
    rw [show String.intercalate ", " [] = "" from rfl]
    have htl : ∀ s t : String, (s ++ t).toList = s.toList ++ t.toList := fun s t => rfl
    rw [htl, htl, htl, htl, htl]
    rw [show ("".toList : List Char) = [] from rfl]
    simp only [List.append_assoc, List.append_nil]
    rw [show ("\n\x7b rank=same; ".toList ++ (" \x7d\n".toList ++ ("\x7d".toList : List Char)))
        = "\n\x7b rank=same;  \x7d\n\x7d".toList from by decide]
  refine ⟨hmain, fun hz => ?_⟩
  rw [hmain,
    countOcc_append_of_last_nl "rank=same".toList (by decide) dotHeader.toList _ (by decide),
    countOcc_append_of_head_nl "rank=same".toList (by decide) _ _ (by decide), hz,
    (by decide : countOcc "rank=same".toList dotHeader.toList = 0),
    (by decide : countOcc "rank=same".toList "\n\x7b rank=same;  \x7d\n\x7d".toList = 1)]

theorem dot_rank_statement_always_emitted_witness :
    (dotFormat [(0, "n"), (1, "e")]).toList =
      dotHeader.toList
        ++ ((String.intercalate "\n" ((sortFrags [(0, "n"), (1, "e")]).map (fun f => f.2))).toList
          ++ "\n\x7b rank=same;  \x7d\n\x7d".toList)
    ∧ countOcc "rank=same".toList (dotFormat [(0, "n"), (1, "e")]).toList = 1 :=
  ⟨(dot_rank_statement_always_emitted [(0, "n"), (1, "e")] (by decide)).1,
    (dot_rank_statement_always_emitted [(0, "n"), (1, "e")] (by decide)).2 (by decide)⟩

example : convert_type "NoneType" = "None" := by decide
example : convert_type "Union[int,\xa0NoneType]" = "Optional[int]" := by decide
example : convert_type "Union[int, NoneType]" = "Union[int, None]" := by decide
example : convert_type "Union[int,\xa0str,\xa0NoneType]" = "Union[int,\xa0str,\xa0None]" := by decide
example : _sanitize "a2_support.my_method" = "my\\_method" := by decide
example : _sanitize (_sanitize "_") = "\\\\_" := by decide
example : mdMethodSignature "__init__" ["x: int"] "str" = "Constructor" := by decide
example : mdMethodSignature "my_method" [] "int" = "my\\_method() -> int" := by decide
example : canonicalize_description "a\nb" = " a b" := by decide
example : canonicalize_description "* a*b" = "\\begin\x7bitemize\x7d\n\\item ab" := by decide
example : canonicalize_description "a\nParameters:\nx" = " aParameters:\nx\n" := by decide
example : canonicalize_description "* a\n\nb" =
    "\\begin\x7bitemize\x7d\n\\item a\n\\end\x7bitemize\x7d\n\n b" := by decide
example : dotFormat (dotAddClass "Foo" ["Base"]) =
    "digraph \"classes\" \x7b\ncharset=\"utf-8\"\nrankdir=BT\n" ++
    "\"Foo\" [color=cyan3, label=\"Foo\", shape=\"box\"];\n" ++
    "\"Foo\" -> \"Base\" [arrowhead=\"empty\", arrowtail=\"none\"];" ++
    "\n\x7b rank=same;  \x7d\n\x7d" := by decide
example : countOcc "rank=same".toList (dotFormat (dotAddClass "Foo" ["Base"])).toList = 1 := by decide
